import Mathlib

/-!
Shallow embedding of the Sudoku engine (soduku.c) and verification of its
natural-language specification.

The C program stores a `struct sudoku` with two flat arrays of 81 ints,
`puzzle` (the clues, write-once) and `solution` (the working grid, 0 = empty).
We embed both arrays as functions `Fin 81 → Nat`.  The cell at (row, col)
lives at flat index `row * 9 + col`, exactly as in the C code.

The recursive backtracking solver `sudoku_solve` is embedded with an explicit
fuel parameter (`solveFuel`), returning `none` when fuel runs out; the
termination theorem shows fuel `emptyCells su + 1` (hence the fixed fuel 82
used by `sudoku_solve`) always suffices, mirroring the C recursion whose depth
is bounded by the number of empty cells.
-/

/-- Board state: the two 81-cell arrays of `struct sudoku` (soduku.c lines 25-31). -/
@[ext]
structure Sudoku where
  puzzle : Fin 81 → Nat
  solution : Fin 81 → Nat

instance : DecidableEq Sudoku := fun a b =>
  decidable_of_iff (a.puzzle = b.puzzle ∧ a.solution = b.solution)
    (by cases a; cases b; simp)

/-- Code for an empty cell (`EMPTY` in soduku.c). -/
def EMPTY : Nat := 0

/-- Flat index of cell (row, col): `row * DIM + col` with DIM = 9. -/
def idx (row col : Fin 9) : Fin 81 := ⟨row.val * 9 + col.val, by omega⟩

/-- The nine flat indices scanned by `violate_row` (row-major within the row). -/
def rowCells (row : Fin 9) : List (Fin 81) :=
  (List.finRange 9).map (fun col => idx row col)

/-- The nine flat indices scanned by `violate_col`. -/
def colCells (col : Fin 9) : List (Fin 81) :=
  (List.finRange 9).map (fun row => idx row col)

/-- The nine flat indices of the 3x3 box with box-coordinates (br, bc),
in the scan order of `violate_box` (i outer, j inner). -/
def boxCellsB (br bc : Fin 3) : List (Fin 81) :=
  (List.finRange 3).flatMap (fun i =>
    (List.finRange 3).map (fun j =>
      (⟨(br.val * 3 + i.val) * 9 + (bc.val * 3 + j.val), by omega⟩ : Fin 81)))

/-- The 3x3 box containing cell (row, col): box-coordinates are
`(row / 3, col / 3)` as computed by `violate_box` (soduku.c lines 88-93). -/
def boxCellsOf (row col : Fin 9) : List (Fin 81) :=
  boxCellsB ⟨row.val / 3, by omega⟩ ⟨col.val / 3, by omega⟩

/-- Embeds `violate_row` (soduku.c lines 40-53): true iff `num` already occurs
in row `row` of the solution grid. -/
def violate_row (su : Sudoku) (row : Fin 9) (num : Nat) : Bool :=
  (rowCells row).any (fun j => su.solution j == num)

/-- Embeds `violate_col` (soduku.c lines 60-73). -/
def violate_col (su : Sudoku) (col : Fin 9) (num : Nat) : Bool :=
  (colCells col).any (fun j => su.solution j == num)

/-- Embeds `violate_box` (soduku.c lines 81-106). -/
def violate_box (su : Sudoku) (row col : Fin 9) (num : Nat) : Bool :=
  (boxCellsOf row col).any (fun j => su.solution j == num)

/-- Embeds `solution_reset` (soduku.c lines 220-227): copy `puzzle` into
`solution`. -/
def solution_reset (su : Sudoku) : Sudoku :=
  { su with solution := su.puzzle }

/-- Embeds `cell_erase` (soduku.c lines 230-241).  Returns the C function's
boolean result together with the updated board. -/
def cell_erase (su : Sudoku) (row col : Fin 9) : Bool × Sudoku :=
  if su.puzzle (idx row col) ≠ EMPTY then (false, su)
  else (true, { su with solution := Function.update su.solution (idx row col) EMPTY })

/-- Embeds `cell_fill` (soduku.c lines 245-265). -/
def cell_fill (su : Sudoku) (row col : Fin 9) (num : Nat) : Bool × Sudoku :=
  if su.puzzle (idx row col) ≠ EMPTY then (false, su)
  else if (violate_row su row num || violate_col su col num ||
      violate_box su row col num) = true then
    (false, su)
  else (true, { su with solution := Function.update su.solution (idx row col) num })

/-- Embeds `puzzle_solved` (soduku.c lines 269-288): true iff every cell of the
solution grid is non-empty (no constraint re-check). -/
def puzzle_solved (su : Sudoku) : Bool :=
  (List.finRange 9).all (fun i => (List.finRange 9).all (fun j =>
    !(su.solution (idx i j) == EMPTY)))

/-- Embeds `cell_choices` (soduku.c lines 292-320).  The C function fills the
out-array `choices` and returns the count; we return the list, whose length is
the count and whose entries are the array contents in order (the loop appends
the passing digits of 1..9 in ascending order, which is exactly this filter). -/
def cell_choices (su : Sudoku) (row col : Fin 9) : List Nat :=
  if su.puzzle (idx row col) ≠ EMPTY then []
  else (List.range' 1 9).filter (fun i =>
    !(violate_row su row i || violate_col su col i || violate_box su row col i))

/-- All 81 (row, col) pairs in row-major order: the iteration order of the
nested `for` loops over i and j in soduku.c. -/
def allCellsRC : List (Fin 9 × Fin 9) :=
  (List.finRange 9).flatMap (fun i => (List.finRange 9).map (fun j => (i, j)))

/-- One step of the first pass of `least_possible_solutions` (soduku.c lines
131-143): `if (num_choices > 0 && num_choices < least) least = num_choices;`. -/
def leastStep (su : Sudoku) (a : Nat) (p : Fin 9 × Fin 9) : Nat :=
  if su.solution (idx p.1 p.2) = EMPTY then
    (if 0 < (cell_choices su p.1 p.2).length ∧ (cell_choices su p.1 p.2).length < a then
      (cell_choices su p.1 p.2).length
    else a)
  else a

/-- Embeds `least_possible_solutions` (soduku.c lines 119-164).  The two
in-out parameters `row`, `col` are passed in and returned (unchanged on the
return-0 path, which never writes them).  The first pass folds the running
minimum starting from `DIM + 1 = 10`; the second pass returns at the first
(row-major) empty cell whose choice count equals that minimum.  The C out-array
`choices` holds, at the return point of the second pass, exactly
`cell_choices su row col` for the returned cell; the solver reads it only
through that equality, so it is not duplicated here. -/
def leastVal (su : Sudoku) : Nat := allCellsRC.foldl (leastStep su) 10

def least_possible_solutions (su : Sudoku) (row col : Fin 9) : Nat × Fin 9 × Fin 9 :=
  match allCellsRC.find? (fun p =>
      decide (su.solution (idx p.1 p.2) = EMPTY) &&
      ((cell_choices su p.1 p.2).length == leastVal su)) with
  | some p => ((cell_choices su p.1 p.2).length, p.1, p.2)
  | none => (0, row, col)

/-- The candidate loop of `sudoku_solve` (soduku.c lines 378-395): try each
candidate in order; a failed `cell_fill` just continues; a successful one
recurses; when the list is exhausted, `cell_erase` the chosen cell and fail.
`recur` is the recursive call at the remaining fuel. -/
def solveTryAux (recur : Sudoku → Option (Bool × Sudoku)) (su : Sudoku)
    (row col : Fin 9) : List Nat → Option (Bool × Sudoku)
  | [] => some (false, (cell_erase su row col).2)
  | d :: rest =>
    match cell_fill su row col d with
    | (false, su1) => solveTryAux recur su1 row col rest
    | (true, su1) =>
      match recur su1 with
      | none => none
      | (some (true, su2)) => some (true, su2)
      | (some (false, su2)) => solveTryAux recur su2 row col rest

/-- Fueled embedding of `sudoku_solve` (soduku.c lines 357-398).  `none` means
the fuel bound was hit; the termination theorem shows fuel
`emptyCells su + 1` always suffices.  The C code initializes row = col = 0
before calling `least_possible_solutions`, and iterates over the `choices`
array, which at that point holds `cell_choices` of the selected cell. -/
def solveFuel : Nat → Sudoku → Option (Bool × Sudoku)
  | 0, _ => none
  | fuel + 1, su =>
    if puzzle_solved su then some (true, su)
    else
      match least_possible_solutions su 0 0 with
      | (0, _, _) => some (false, su)
      | (_ + 1, row, col) => solveTryAux (solveFuel fuel) su row col (cell_choices su row col)

/-- Number of empty cells of the solution grid; the C recursion depth is
bounded by this, so 82 units of fuel always suffice. -/
def emptyCells (su : Sudoku) : Nat :=
  (Finset.univ.filter (fun i : Fin 81 => su.solution i = EMPTY)).card

/-- Embeds `sudoku_solve` (soduku.c lines 357-398) at the always-sufficient
fuel 82 (there are at most 81 empty cells). -/
def sudoku_solve (su : Sudoku) : Bool × Sudoku :=
  match solveFuel 82 su with
  | some r => r
  | none => (false, su)

/-- Build a board array from a row-major list of 81 values (missing entries
read as 0). -/
def mkBoard (l : List Nat) : Fin 81 → Nat := fun i => l.getD i.val 0

/-! ### Structural facts about cells and units -/

theorem idx_val (row col : Fin 9) : (idx row col).val = row.val * 9 + col.val := rfl

theorem idx_inj {r c r' c' : Fin 9} (h : idx r c = idx r' c') : r = r' ∧ c = c' := by
  have hv : r.val * 9 + c.val = r'.val * 9 + c'.val := congrArg Fin.val h
  have hr : r.val = r'.val := by omega
  have hc : c.val = c'.val := by omega
  exact ⟨Fin.ext hr, Fin.ext hc⟩

theorem mem_rowCells {i : Fin 81} {r : Fin 9} : i ∈ rowCells r ↔ i.val / 9 = r.val := by
  revert i r; decide

theorem mem_colCells {i : Fin 81} {c : Fin 9} : i ∈ colCells c ↔ i.val % 9 = c.val := by
  revert i c; decide

theorem mem_boxCellsB {i : Fin 81} {br bc : Fin 3} :
    i ∈ boxCellsB br bc ↔ i.val / 9 / 3 = br.val ∧ i.val % 9 / 3 = bc.val := by
  revert i br bc; decide

theorem mem_boxCellsOf {i : Fin 81} {r c : Fin 9} :
    i ∈ boxCellsOf r c ↔ i.val / 9 / 3 = r.val / 3 ∧ i.val % 9 / 3 = c.val / 3 := by
  simpa [boxCellsOf] using
    (@mem_boxCellsB i ⟨r.val / 3, by omega⟩ ⟨c.val / 3, by omega⟩)

theorem idx_mem_rowCells (r c : Fin 9) : idx r c ∈ rowCells r := by
  rw [mem_rowCells, idx_val]; omega

theorem idx_mem_colCells (r c : Fin 9) : idx r c ∈ colCells c := by
  rw [mem_colCells, idx_val]; omega

theorem idx_mem_boxCellsOf (r c : Fin 9) : idx r c ∈ boxCellsOf r c := by
  rw [mem_boxCellsOf, idx_val]
  constructor <;> omega

/-- All 27 units of the board: the 9 rows, then the 9 columns, then the 9
boxes. -/
def allUnits : List (List (Fin 81)) :=
  (List.finRange 9).map rowCells ++ (List.finRange 9).map colCells ++
    ((List.finRange 3).flatMap (fun br => (List.finRange 3).map (fun bc => boxCellsB br bc)))

theorem allUnits_nodup_len : ∀ u ∈ allUnits, u.Nodup ∧ u.length = 9 := by decide

theorem rowCells_mem_allUnits (r : Fin 9) : rowCells r ∈ allUnits := by
  revert r; decide

theorem colCells_mem_allUnits (c : Fin 9) : colCells c ∈ allUnits := by
  revert c; decide

theorem boxCellsOf_mem_allUnits (r c : Fin 9) : boxCellsOf r c ∈ allUnits := by
  revert r c; decide

/-- A unit containing the cell (r, c) is that cell's row, column, or box. -/
theorem unit_containing_cell {u : List (Fin 81)} {r c : Fin 9} (hu : u ∈ allUnits)
    (hm : idx r c ∈ u) : u = rowCells r ∨ u = colCells c ∨ u = boxCellsOf r c := by
  simp only [allUnits, List.mem_append, List.mem_map, List.mem_flatMap,
    List.mem_finRange, true_and] at hu
  rcases hu with (⟨r', hr⟩ | ⟨c', hc⟩) | hbox
  · subst hr
    rw [mem_rowCells, idx_val] at hm
    left
    have : r' = r := Fin.ext (by omega)
    rw [this]
  · subst hc
    rw [mem_colCells, idx_val] at hm
    right; left
    have : c' = c := Fin.ext (by omega)
    rw [this]
  · obtain ⟨br, hb1⟩ := hbox
    obtain ⟨bc, hb⟩ := hb1
    subst hb
    rw [mem_boxCellsB, idx_val] at hm
    right; right
    rw [boxCellsOf]
    have h1 : br = ⟨r.val / 3, by omega⟩ := Fin.ext (by show br.val = r.val / 3; omega)
    have h2 : bc = ⟨c.val / 3, by omega⟩ := Fin.ext (by show bc.val = c.val / 3; omega)
    rw [h1, h2]

/-! ### Basic facts about the constraint checks and cell operations -/

theorem violate_row_false_iff {su : Sudoku} {row : Fin 9} {num : Nat} :
    violate_row su row num = false ↔ ∀ j ∈ rowCells row, su.solution j ≠ num := by
  simp [violate_row, List.any_eq_false]

theorem violate_col_false_iff {su : Sudoku} {col : Fin 9} {num : Nat} :
    violate_col su col num = false ↔ ∀ j ∈ colCells col, su.solution j ≠ num := by
  simp [violate_col, List.any_eq_false]

theorem violate_box_false_iff {su : Sudoku} {row col : Fin 9} {num : Nat} :
    violate_box su row col num = false ↔ ∀ j ∈ boxCellsOf row col, su.solution j ≠ num := by
  simp [violate_box, List.any_eq_false]

theorem violate_row_true_iff {su : Sudoku} {row : Fin 9} {num : Nat} :
    violate_row su row num = true ↔ ∃ j ∈ rowCells row, su.solution j = num := by
  simp [violate_row, List.any_eq_true]

theorem violate_col_true_iff {su : Sudoku} {col : Fin 9} {num : Nat} :
    violate_col su col num = true ↔ ∃ j ∈ colCells col, su.solution j = num := by
  simp [violate_col, List.any_eq_true]

theorem violate_box_true_iff {su : Sudoku} {row col : Fin 9} {num : Nat} :
    violate_box su row col num = true ↔ ∃ j ∈ boxCellsOf row col, su.solution j = num := by
  simp [violate_box, List.any_eq_true]

theorem idx_surjective (i : Fin 81) :
    idx ⟨i.val / 9, by omega⟩ ⟨i.val % 9, by omega⟩ = i := by
  apply Fin.ext
  show i.val / 9 * 9 + i.val % 9 = i.val
  omega

theorem puzzle_solved_iff {su : Sudoku} :
    puzzle_solved su = true ↔ ∀ i : Fin 81, su.solution i ≠ EMPTY := by
  constructor
  · intro h i
    simp only [puzzle_solved, List.all_eq_true, List.mem_finRange, true_implies,
      Bool.not_eq_eq_eq_not, Bool.not_true, beq_eq_false_iff_ne, ne_eq] at h
    have := h ⟨i.val / 9, by omega⟩ ⟨i.val % 9, by omega⟩
    rwa [idx_surjective] at this
  · intro h
    simp only [puzzle_solved, List.all_eq_true, List.mem_finRange, true_implies,
      Bool.not_eq_eq_eq_not, Bool.not_true, beq_eq_false_iff_ne, ne_eq]
    intro i j
    exact h (idx i j)

theorem cell_fill_clue {su : Sudoku} {row col : Fin 9} {num : Nat}
    (h : su.puzzle (idx row col) ≠ EMPTY) : cell_fill su row col num = (false, su) := by
  simp [cell_fill, h]

theorem cell_fill_violate {su : Sudoku} {row col : Fin 9} {num : Nat}
    (h : su.puzzle (idx row col) = EMPTY)
    (hv : (violate_row su row num || violate_col su col num ||
      violate_box su row col num) = true) :
    cell_fill su row col num = (false, su) := by
  simp [cell_fill, h, hv]

theorem cell_fill_ok {su : Sudoku} {row col : Fin 9} {num : Nat}
    (h : su.puzzle (idx row col) = EMPTY)
    (h1 : violate_row su row num = false) (h2 : violate_col su col num = false)
    (h3 : violate_box su row col num = false) :
    cell_fill su row col num =
      (true, { su with solution := Function.update su.solution (idx row col) num }) := by
  simp [cell_fill, h, h1, h2, h3]

theorem cell_fill_false_eq {su : Sudoku} {row col : Fin 9} {num : Nat} {su2 : Sudoku}
    (h : cell_fill su row col num = (false, su2)) : su2 = su := by
  by_cases hp : su.puzzle (idx row col) = EMPTY
  · by_cases hv : (violate_row su row num || violate_col su col num ||
        violate_box su row col num) = true
    · rw [cell_fill_violate hp hv] at h
      exact (Prod.mk.injEq _ _ _ _ ▸ h).2.symm
    · rw [Bool.not_eq_true] at hv
      rw [cell_fill, if_neg (by simpa using hp), if_neg (by simp [hv])] at h
      cases h
  · rw [cell_fill_clue hp] at h
    exact (Prod.mk.injEq _ _ _ _ ▸ h).2.symm

theorem cell_fill_true_eq {su : Sudoku} {row col : Fin 9} {num : Nat} {su2 : Sudoku}
    (h : cell_fill su row col num = (true, su2)) :
    su.puzzle (idx row col) = EMPTY ∧ violate_row su row num = false ∧
      violate_col su col num = false ∧ violate_box su row col num = false ∧
      su2 = { su with solution := Function.update su.solution (idx row col) num } := by
  by_cases hp : su.puzzle (idx row col) = EMPTY
  · by_cases hv : (violate_row su row num || violate_col su col num ||
        violate_box su row col num) = true
    · rw [cell_fill_violate hp hv] at h
      cases h
    · simp only [Bool.or_eq_true, not_or, Bool.not_eq_true] at hv
      obtain ⟨⟨h1, h2⟩, h3⟩ := hv
      rw [cell_fill_ok hp h1 h2 h3] at h
      exact ⟨hp, h1, h2, h3, ((Prod.mk.injEq _ _ _ _ ▸ h).2).symm⟩
  · rw [cell_fill_clue hp] at h
    cases h

theorem cell_erase_clue {su : Sudoku} {row col : Fin 9}
    (h : su.puzzle (idx row col) ≠ EMPTY) : cell_erase su row col = (false, su) := by
  simp [cell_erase, h]

theorem cell_erase_ok {su : Sudoku} {row col : Fin 9}
    (h : su.puzzle (idx row col) = EMPTY) :
    cell_erase su row col =
      (true, { su with solution := Function.update su.solution (idx row col) EMPTY }) := by
  simp [cell_erase, h]

theorem cell_choices_clue {su : Sudoku} {row col : Fin 9}
    (h : su.puzzle (idx row col) ≠ EMPTY) : cell_choices su row col = [] := by
  simp [cell_choices, h]

theorem cell_choices_nonclue {su : Sudoku} {row col : Fin 9}
    (h : su.puzzle (idx row col) = EMPTY) :
    cell_choices su row col = (List.range' 1 9).filter (fun i =>
      !(violate_row su row i || violate_col su col i || violate_box su row col i)) := by
  simp [cell_choices, h]

theorem mem_cell_choices {su : Sudoku} {row col : Fin 9} {d : Nat} :
    d ∈ cell_choices su row col ↔
      su.puzzle (idx row col) = EMPTY ∧ 1 ≤ d ∧ d ≤ 9 ∧
        violate_row su row d = false ∧ violate_col su col d = false ∧
        violate_box su row col d = false := by
  by_cases h : su.puzzle (idx row col) = EMPTY
  · rw [cell_choices_nonclue h]
    simp only [List.mem_filter, List.mem_range'_1, Bool.not_eq_eq_eq_not, Bool.not_true,
      Bool.or_eq_false_iff]
    constructor
    · rintro ⟨⟨hd1, hd2⟩, ⟨hv1, hv2⟩, hv3⟩
      exact ⟨h, hd1, by omega, hv1, hv2, hv3⟩
    · rintro ⟨_, hd1, hd2, hv1, hv2, hv3⟩
      exact ⟨⟨hd1, by omega⟩, ⟨hv1, hv2⟩, hv3⟩
  · rw [cell_choices_clue h]
    simp [h]

theorem cell_choices_length_le (su : Sudoku) (row col : Fin 9) :
    (cell_choices su row col).length ≤ 9 := by
  by_cases h : su.puzzle (idx row col) = EMPTY
  · rw [cell_choices_nonclue h]
    calc ((List.range' 1 9).filter _).length ≤ (List.range' 1 9).length :=
          List.length_filter_le _ _
      _ = 9 := by simp
  · rw [cell_choices_clue h]
    simp

theorem cell_choices_pos_puzzle_empty {su : Sudoku} {row col : Fin 9}
    (h : 0 < (cell_choices su row col).length) : su.puzzle (idx row col) = EMPTY := by
  by_contra hc
  rw [cell_choices_clue hc] at h
  simp at h

theorem cell_choices_sorted (su : Sudoku) (row col : Fin 9) :
    List.Sorted (· < ·) (cell_choices su row col) := by
  by_cases h : su.puzzle (idx row col) = EMPTY
  · rw [cell_choices_nonclue h]
    exact List.Pairwise.sublist (List.filter_sublist _) (by decide)
  · rw [cell_choices_clue h]
    exact List.sorted_nil

/-! ### The first pass of `least_possible_solutions`: a running minimum -/

theorem leastStep_le (su : Sudoku) (a : Nat) (p : Fin 9 × Fin 9) : leastStep su a p ≤ a := by
  unfold leastStep
  split
  · split
    · omega
    · exact le_refl a
  · exact le_refl a

theorem foldl_leastStep_le_init (su : Sudoku) (l : List (Fin 9 × Fin 9)) (a : Nat) :
    l.foldl (leastStep su) a ≤ a := by
  induction l generalizing a with
  | nil => exact le_refl a
  | cons q t ih => exact le_trans (ih (leastStep su a q)) (leastStep_le su a q)

theorem leastStep_le_choice (su : Sudoku) (a : Nat) (p : Fin 9 × Fin 9)
    (hE : su.solution (idx p.1 p.2) = EMPTY) (hpos : 0 < (cell_choices su p.1 p.2).length) :
    leastStep su a p ≤ (cell_choices su p.1 p.2).length := by
  unfold leastStep
  rw [if_pos hE]
  split
  · exact le_refl _
  · omega

theorem foldl_leastStep_le {su : Sudoku} {l : List (Fin 9 × Fin 9)} {p : Fin 9 × Fin 9}
    (hp : p ∈ l) (hE : su.solution (idx p.1 p.2) = EMPTY)
    (hpos : 0 < (cell_choices su p.1 p.2).length) (a : Nat) :
    l.foldl (leastStep su) a ≤ (cell_choices su p.1 p.2).length := by
  induction l generalizing a with
  | nil => cases hp
  | cons q t ih =>
    rcases List.mem_cons.mp hp with h | h
    · subst h
      exact le_trans (foldl_leastStep_le_init su t (leastStep su a p))
        (leastStep_le_choice su a p hE hpos)
    · exact ih h (leastStep su a q)

theorem foldl_leastStep_mem (su : Sudoku) (l : List (Fin 9 × Fin 9)) (a : Nat) :
    l.foldl (leastStep su) a = a ∨ ∃ p ∈ l, su.solution (idx p.1 p.2) = EMPTY ∧
      0 < (cell_choices su p.1 p.2).length ∧
      l.foldl (leastStep su) a = (cell_choices su p.1 p.2).length := by
  induction l generalizing a with
  | nil => exact Or.inl rfl
  | cons q t ih =>
    rcases ih (leastStep su a q) with h | ⟨p, hp, h1, h2, h3⟩
    · by_cases hE : su.solution (idx q.1 q.2) = EMPTY
      · by_cases hc : 0 < (cell_choices su q.1 q.2).length ∧
            (cell_choices su q.1 q.2).length < a
        · right
          refine ⟨q, List.mem_cons_self _ _, hE, hc.1, ?_⟩
          rw [List.foldl_cons, h]
          unfold leastStep
          rw [if_pos hE, if_pos hc]
        · left
          rw [List.foldl_cons, h]
          unfold leastStep
          rw [if_pos hE, if_neg hc]
      · left
        rw [List.foldl_cons, h]
        unfold leastStep
        rw [if_neg hE]
    · exact Or.inr ⟨p, List.mem_cons_of_mem q hp, h1, h2, h3⟩

theorem foldl_leastStep_pos {su : Sudoku} {l : List (Fin 9 × Fin 9)} {a : Nat}
    (ha : 0 < a) : 0 < l.foldl (leastStep su) a := by
  induction l generalizing a with
  | nil => exact ha
  | cons q t ih =>
    apply ih
    unfold leastStep
    split
    · split
      · omega
      · exact ha
    · exact ha

/-! ### The second pass: `find?` returns the first matching cell -/

theorem find?_min_pos {α : Type} (f : α → Nat) (p : α → Bool) :
    ∀ l : List α, l.Pairwise (fun a b => f a < f b) → ∀ a, l.find? p = some a →
      ∀ x ∈ l, p x = true → f a ≤ f x := by
  intro l
  induction l with
  | nil => intro _ a h; cases h
  | cons q t ih =>
    intro hpw a hfind x hx hpx
    rcases List.pairwise_cons.mp hpw with ⟨hq, hpt⟩
    by_cases hpq : p q = true
    · rw [List.find?_cons_of_pos _ hpq] at hfind
      cases hfind
      rcases List.mem_cons.mp hx with h | h
      · subst h; exact le_refl _
      · exact le_of_lt (hq x h)
    · rw [List.find?_cons_of_neg _ (by simpa using hpq)] at hfind
      rcases List.mem_cons.mp hx with h | h
      · subst h; rw [hpx] at hpq; cases hpq rfl
      · exact ih hpt a hfind x h hpx

theorem allCellsRC_pairwise :
    allCellsRC.Pairwise (fun p q : Fin 9 × Fin 9 =>
      p.1.val * 9 + p.2.val < q.1.val * 9 + q.2.val) := by decide

theorem mem_allCellsRC (p : Fin 9 × Fin 9) : p ∈ allCellsRC := by
  revert p; decide

/-! ### Characterization of `least_possible_solutions` -/

theorem lps_of_no_candidates {su : Sudoku} (r0 c0 : Fin 9)
    (h : ∀ r c : Fin 9, su.solution (idx r c) = EMPTY → cell_choices su r c = []) :
    least_possible_solutions su r0 c0 = (0, r0, c0) := by
  have hleast : leastVal su = 10 := by
    rcases foldl_leastStep_mem su allCellsRC 10 with hm | ⟨p, _, h1, h2, _⟩
    · exact hm
    · rw [h p.1 p.2 h1] at h2
      simp at h2
  have hnone : allCellsRC.find? (fun p =>
      decide (su.solution (idx p.1 p.2) = EMPTY) &&
      ((cell_choices su p.1 p.2).length == leastVal su)) = none := by
    rw [List.find?_eq_none]
    intro p _
    by_cases hE : su.solution (idx p.1 p.2) = EMPTY
    · have : (cell_choices su p.1 p.2).length = 0 := by rw [h p.1 p.2 hE]; rfl
      simp [this, hleast]
    · simp [hE]
  rw [least_possible_solutions, hnone]

theorem lps_of_candidate {su : Sudoku} (r0 c0 : Fin 9) {r1 c1 : Fin 9}
    (hE : su.solution (idx r1 c1) = EMPTY)
    (hpos : 0 < (cell_choices su r1 c1).length) :
    ∃ k r c, least_possible_solutions su r0 c0 = (k, r, c) ∧
      su.solution (idx r c) = EMPTY ∧ (cell_choices su r c).length = k ∧ 0 < k ∧
      (∀ r' c' : Fin 9, su.solution (idx r' c') = EMPTY →
        0 < (cell_choices su r' c').length → k ≤ (cell_choices su r' c').length) ∧
      (∀ r' c' : Fin 9, su.solution (idx r' c') = EMPTY →
        (cell_choices su r' c').length = k → r.val * 9 + c.val ≤ r'.val * 9 + c'.val) := by
  have hmin : ∀ r' c' : Fin 9, su.solution (idx r' c') = EMPTY →
      0 < (cell_choices su r' c').length → leastVal su ≤ (cell_choices su r' c').length :=
    fun r' c' hE' hp' => foldl_leastStep_le (mem_allCellsRC (r', c')) hE' hp' 10
  have hle9 : leastVal su ≤ 9 :=
    le_trans (hmin r1 c1 hE hpos) (cell_choices_length_le su r1 c1)
  have hex : ∃ p ∈ allCellsRC, su.solution (idx p.1 p.2) = EMPTY ∧
      0 < (cell_choices su p.1 p.2).length ∧
      leastVal su = (cell_choices su p.1 p.2).length := by
    rcases foldl_leastStep_mem su allCellsRC 10 with hm | hm
    · rw [leastVal] at hle9
      omega
    · exact hm
  obtain ⟨p1, hp1, hp1E, hp1pos, hp1len⟩ := hex
  have hpos10 : 0 < leastVal su := foldl_leastStep_pos (by omega)
  set q : Fin 9 × Fin 9 → Bool := fun p =>
    decide (su.solution (idx p.1 p.2) = EMPTY) &&
    ((cell_choices su p.1 p.2).length == leastVal su) with hq
  have hsome : ∃ a, allCellsRC.find? q = some a := by
    rcases ho : allCellsRC.find? q with _ | a
    · rw [List.find?_eq_none] at ho
      exact absurd (by simp [hq, hp1E, hp1len.symm]) (ho p1 hp1)
    · exact ⟨a, rfl⟩
  obtain ⟨a, ha⟩ := hsome
  have haq : q a = true := List.find?_some ha
  have haE : su.solution (idx a.1 a.2) = EMPTY := by
    have := (Bool.and_eq_true _ _).mp haq
    simpa using this.1
  have halen : (cell_choices su a.1 a.2).length = leastVal su := by
    have := (Bool.and_eq_true _ _).mp haq
    simpa using this.2
  refine ⟨leastVal su, a.1, a.2, ?_, haE, halen, hpos10, hmin, ?_⟩
  · rw [least_possible_solutions, ha]
    show ((cell_choices su a.1 a.2).length, a.1, a.2) = (leastVal su, a.1, a.2)
    rw [halen]
  · intro r' c' hE' hlen'
    have := find?_min_pos (fun p : Fin 9 × Fin 9 => p.1.val * 9 + p.2.val) q allCellsRC
      allCellsRC_pairwise a ha (r', c') (mem_allCellsRC _) (by simp [hq, hE', hlen'])
    simpa using this

theorem lps_succ_inv {su : Sudoku} {r0 c0 : Fin 9} {k : Nat} {r c : Fin 9}
    (h : least_possible_solutions su r0 c0 = (k, r, c)) (hk : k ≠ 0) :
    su.solution (idx r c) = EMPTY ∧ su.puzzle (idx r c) = EMPTY ∧
      (cell_choices su r c).length = k := by
  rw [least_possible_solutions] at h
  rcases ha : allCellsRC.find? (fun p =>
      decide (su.solution (idx p.1 p.2) = EMPTY) &&
      ((cell_choices su p.1 p.2).length == leastVal su)) with _ | a
  · rw [ha] at h
    have h' : ((0 : Nat), r0, c0) = (k, r, c) := h
    cases h'
    cases hk rfl
  · rw [ha] at h
    have haq := List.find?_some ha
    have h' : ((cell_choices su a.1 a.2).length, a.1, a.2) = (k, r, c) := h
    have hinj := Prod.mk.injEq _ _ _ _ ▸ h'
    obtain ⟨hk1, hrc⟩ := hinj
    have hrc1 : a.1 = r := (Prod.mk.injEq _ _ _ _ ▸ hrc).1
    have hrc2 : a.2 = c := (Prod.mk.injEq _ _ _ _ ▸ hrc).2
    have haE : su.solution (idx a.1 a.2) = EMPTY := by
      have := (Bool.and_eq_true _ _).mp haq
      simpa using this.1
    rw [hrc1, hrc2] at haE
    have hlen : (cell_choices su r c).length = k := by rw [← hk1, hrc1, hrc2]
    refine ⟨haE, cell_choices_pos_puzzle_empty (by omega), hlen⟩

/-! ### The solver restores the board exactly on failure -/

theorem solveTryAux_false {f : Nat} {su0 : Sudoku} {row col : Fin 9}
    (IH : ∀ s s' : Sudoku, solveFuel f s = some (false, s') → s' = s)
    (hpz0 : su0.puzzle (idx row col) = EMPTY)
    (hE0 : su0.solution (idx row col) = EMPTY) :
    ∀ (l : List Nat) (su1 : Sudoku), su1.puzzle = su0.puzzle →
      (∀ j, j ≠ idx row col → su1.solution j = su0.solution j) →
      ∀ s', solveTryAux (solveFuel f) su1 row col l = some (false, s') → s' = su0 := by
  intro l
  induction l with
  | nil =>
    intro su1 hpz hoff s' h
    rw [solveTryAux] at h
    have hpz1 : su1.puzzle (idx row col) = EMPTY := by rw [hpz]; exact hpz0
    rw [cell_erase_ok hpz1] at h
    simp only [Option.some.injEq, Prod.mk.injEq, true_and] at h
    rw [← h]
    apply Sudoku.ext
    · exact hpz
    · funext j
      by_cases hj : j = idx row col
      · subst hj
        simp [Function.update_same, hE0]
      · simp only [Function.update_noteq hj]
        exact hoff j hj
  | cons d rest ih =>
    intro su1 hpz hoff s' h
    rw [solveTryAux] at h
    rcases hf : cell_fill su1 row col d with ⟨b, su2⟩
    rw [hf] at h
    cases b with
    | false =>
      dsimp only at h
      have hsu2 : su2 = su1 := cell_fill_false_eq hf
      subst hsu2
      exact ih su2 hpz hoff s' h
    | true =>
      dsimp only at h
      obtain ⟨hp1, hv1, hv2, hv3, hsu2⟩ := cell_fill_true_eq hf
      rcases hr : solveFuel f su2 with _ | ⟨b2, su3⟩
      · rw [hr] at h
        cases h
      · rw [hr] at h
        cases b2 with
        | true => dsimp only at h; cases h
        | false =>
          dsimp only at h
          have hsu3 : su3 = su2 := IH su2 su3 hr
          subst hsu3
          apply ih su3 (by rw [hsu2, hpz]) _ s' h
          intro j hj
          rw [hsu2]
          simp only [Function.update_noteq hj]
          exact hoff j hj

theorem solveFuel_false_eq : ∀ (fuel : Nat) (su s' : Sudoku),
    solveFuel fuel su = some (false, s') → s' = su := by
  intro fuel
  induction fuel with
  | zero => intro su s' h; cases h
  | succ f IH =>
    intro su s' h
    rw [solveFuel] at h
    by_cases hs : puzzle_solved su = true
    · rw [if_pos hs] at h
      cases h
    · rw [if_neg hs] at h
      rcases hlps : least_possible_solutions su 0 0 with ⟨k, r, c⟩
      rw [hlps] at h
      cases k with
      | zero =>
        simp only [Option.some.injEq, Prod.mk.injEq, true_and] at h
        exact h.symm
      | succ k0 =>
        obtain ⟨hE, hpz, _⟩ := lps_succ_inv hlps (by omega)
        exact solveTryAux_false IH hpz hE (cell_choices su r c) su rfl
          (fun j _ => rfl) s' h

/-! ### Termination: fuel `emptyCells su + 1` always suffices -/

theorem emptyCells_le_81 (su : Sudoku) : emptyCells su ≤ 81 := by
  rw [emptyCells]
  exact le_trans (Finset.card_filter_le _ _) (by simp)

theorem emptyCells_congr {su t : Sudoku} (h : su.solution = t.solution) :
    emptyCells su = emptyCells t := by
  rw [emptyCells, emptyCells, h]

theorem emptyCells_update {su : Sudoku} {cell : Fin 81} {d : Nat}
    (hE : su.solution cell = EMPTY) (hd : d ≠ EMPTY) :
    emptyCells { su with solution := Function.update su.solution cell d } + 1 =
      emptyCells su := by
  rw [emptyCells, emptyCells]
  have hset : (Finset.univ.filter (fun i : Fin 81 =>
      Function.update su.solution cell d i = EMPTY)) =
      (Finset.univ.filter (fun i : Fin 81 => su.solution i = EMPTY)).erase cell := by
    ext i
    by_cases hi : i = cell
    · subst hi
      simp [Function.update_same, hd]
    · simp [Function.update_noteq hi, hi]
  show (Finset.univ.filter (fun i : Fin 81 =>
      Function.update su.solution cell d i = EMPTY)).card + 1 = _
  rw [hset, Finset.card_erase_of_mem (by simp [hE])]
  have hpos : 0 < (Finset.univ.filter (fun i : Fin 81 => su.solution i = EMPTY)).card :=
    Finset.card_pos.mpr ⟨cell, by simp [hE]⟩
  omega

theorem solveTryAux_isSome {f : Nat} {su0 : Sudoku} {row col : Fin 9}
    (IH : ∀ s : Sudoku, emptyCells s < f → (solveFuel f s).isSome = true)
    (hE0 : su0.solution (idx row col) = EMPTY)
    (hcnt : emptyCells su0 ≤ f) :
    ∀ l : List Nat, (∀ d ∈ l, d ≠ EMPTY) → ∀ su1 : Sudoku, su1.puzzle = su0.puzzle →
      (∀ j, j ≠ idx row col → su1.solution j = su0.solution j) →
      (solveTryAux (solveFuel f) su1 row col l).isSome = true := by
  intro l
  induction l with
  | nil =>
    intro _ su1 _ _
    rw [solveTryAux]
    rfl
  | cons d rest ih =>
    intro hl su1 hpz hoff
    rw [solveTryAux]
    rcases hf : cell_fill su1 row col d with ⟨b, su2⟩
    cases b with
    | false =>
      dsimp only
      have hsu2 : su2 = su1 := cell_fill_false_eq hf
      subst hsu2
      exact ih (fun e he => hl e (List.mem_cons_of_mem d he)) su2 hpz hoff
    | true =>
      dsimp only
      obtain ⟨hp1, _, _, _, hsu2⟩ := cell_fill_true_eq hf
      have hsol2 : su2.solution = Function.update su0.solution (idx row col) d := by
        rw [hsu2]
        funext j
        by_cases hj : j = idx row col
        · subst hj
          simp [Function.update_same]
        · simp only [Function.update_noteq hj]
          exact hoff j hj
      have hcard : emptyCells su2 + 1 = emptyCells su0 := by
        rw [@emptyCells_congr su2 { su0 with
          solution := Function.update su0.solution (idx row col) d } hsol2]
        exact emptyCells_update hE0 (hl d (List.mem_cons_self d rest))
      have hlt : emptyCells su2 < f := by omega
      have hs2 := IH su2 hlt
      rcases hr : solveFuel f su2 with _ | ⟨b2, su3⟩
      · rw [hr] at hs2
        cases hs2
      · cases b2 with
        | true => rfl
        | false =>
          dsimp only
          have hsu3 : su3 = su2 := solveFuel_false_eq f su2 su3 hr
          subst hsu3
          apply ih (fun e he => hl e (List.mem_cons_of_mem d he)) su3 (by rw [hsu2, hpz])
          intro j hj
          rw [hsol2]
          simp only [Function.update_noteq hj]

theorem solveFuel_isSome : ∀ (fuel : Nat) (su : Sudoku), emptyCells su < fuel →
    (solveFuel fuel su).isSome = true := by
  intro fuel
  induction fuel with
  | zero => intro su h; omega
  | succ f IH =>
    intro su h
    rw [solveFuel]
    by_cases hs : puzzle_solved su = true
    · rw [if_pos hs]
      rfl
    · rw [if_neg hs]
      rcases hlps : least_possible_solutions su 0 0 with ⟨k, r, c⟩
      cases k with
      | zero => rfl
      | succ k0 =>
        obtain ⟨hE, hpz, hlen⟩ := lps_succ_inv hlps (by omega)
        apply solveTryAux_isSome IH hE (by omega) (cell_choices su r c) _ su rfl
          (fun j _ => rfl)
        intro e he
        have := mem_cell_choices.mp he
        have h1 : 1 ≤ e := this.2.1
        show e ≠ 0
        omega

/-! ### A successful solve is a chain of legal fill steps ending in a full board -/

/-- One effective mutation performed by the solver, seen from the board state
at the start of the enclosing candidate loop: a non-clue, currently empty cell
receives a digit 1..9 that occurs nowhere in its row, column, or box. -/
def FillStep (su t : Sudoku) : Prop :=
  ∃ (row col : Fin 9) (d : Nat),
    su.solution (idx row col) = EMPTY ∧ su.puzzle (idx row col) = EMPTY ∧
    1 ≤ d ∧ d ≤ 9 ∧
    violate_row su row d = false ∧ violate_col su col d = false ∧
    violate_box su row col d = false ∧
    t = { su with solution := Function.update su.solution (idx row col) d }

theorem any_transfer {su0 su1 : Sudoku} {cell : Fin 81}
    (hoff : ∀ j, j ≠ cell → su1.solution j = su0.solution j)
    (hE0 : su0.solution cell = EMPTY) {d : Nat} (hd : d ≠ 0) {cells : List (Fin 81)}
    (h : cells.any (fun j => su1.solution j == d) = false) :
    cells.any (fun j => su0.solution j == d) = false := by
  rw [List.any_eq_false] at h ⊢
  intro j hj
  by_cases hc : j = cell
  · subst hc
    simp [hE0, EMPTY]
    omega
  · have := h j hj
    rw [← hoff j hc]
    exact this

theorem solveTryAux_true_steps {f : Nat} {su0 : Sudoku} {row col : Fin 9}
    (IH : ∀ s s' : Sudoku, solveFuel f s = some (true, s') →
      Relation.ReflTransGen FillStep s s' ∧ puzzle_solved s' = true)
    (IHf : ∀ s s' : Sudoku, solveFuel f s = some (false, s') → s' = s)
    (hE0 : su0.solution (idx row col) = EMPTY)
    (hpz0 : su0.puzzle (idx row col) = EMPTY) :
    ∀ l : List Nat, (∀ d ∈ l, 1 ≤ d ∧ d ≤ 9) → ∀ su1 : Sudoku,
      su1.puzzle = su0.puzzle →
      (∀ j, j ≠ idx row col → su1.solution j = su0.solution j) →
      ∀ s', solveTryAux (solveFuel f) su1 row col l = some (true, s') →
        Relation.ReflTransGen FillStep su0 s' ∧ puzzle_solved s' = true := by
  intro l
  induction l with
  | nil =>
    intro _ su1 _ _ s' h
    rw [solveTryAux] at h
    simp only [Option.some.injEq, Prod.mk.injEq] at h
    cases h.1
  | cons d rest ih =>
    intro hl su1 hpz hoff s' h
    rw [solveTryAux] at h
    rcases hf : cell_fill su1 row col d with ⟨b, su2⟩
    rw [hf] at h
    cases b with
    | false =>
      dsimp only at h
      have hsu2 : su2 = su1 := cell_fill_false_eq hf
      subst hsu2
      exact ih (fun e he => hl e (List.mem_cons_of_mem d he)) su2 hpz hoff s' h
    | true =>
      dsimp only at h
      obtain ⟨hp1, hv1, hv2, hv3, hsu2⟩ := cell_fill_true_eq hf
      have hdb := hl d (List.mem_cons_self d rest)
      have hdne : d ≠ 0 := by omega
      have hsol2 : su2.solution = Function.update su0.solution (idx row col) d := by
        rw [hsu2]
        funext j
        by_cases hj : j = idx row col
        · subst hj
          simp [Function.update_same]
        · simp only [Function.update_noteq hj]
          exact hoff j hj
      have hsu2eq : su2 = { su0 with
          solution := Function.update su0.solution (idx row col) d } := by
        apply Sudoku.ext
        · rw [hsu2]
          exact hpz
        · exact hsol2
      have hstep : FillStep su0 su2 := by
        refine ⟨row, col, d, hE0, hpz0, hdb.1, hdb.2, ?_, ?_, ?_, hsu2eq⟩
        · exact any_transfer hoff hE0 hdne hv1
        · exact any_transfer hoff hE0 hdne hv2
        · exact any_transfer hoff hE0 hdne hv3
      rcases hr : solveFuel f su2 with _ | ⟨b2, su3⟩
      · rw [hr] at h
        cases h
      · rw [hr] at h
        cases b2 with
        | true =>
          dsimp only at h
          simp only [Option.some.injEq, Prod.mk.injEq, true_and] at h
          subst h
          obtain ⟨hchain, hsolved⟩ := IH su2 su3 hr
          exact ⟨Relation.ReflTransGen.head hstep hchain, hsolved⟩
        | false =>
          dsimp only at h
          have hsu3 : su3 = su2 := IHf su2 su3 hr
          subst hsu3
          apply ih (fun e he => hl e (List.mem_cons_of_mem d he)) su3
            (by rw [hsu2, hpz]) _ s' h
          intro j hj
          rw [hsol2]
          simp only [Function.update_noteq hj]

theorem solveFuel_true_steps : ∀ (fuel : Nat) (su s' : Sudoku),
    solveFuel fuel su = some (true, s') →
    Relation.ReflTransGen FillStep su s' ∧ puzzle_solved s' = true := by
  intro fuel
  induction fuel with
  | zero => intro su s' h; cases h
  | succ f IH =>
    intro su s' h
    rw [solveFuel] at h
    by_cases hs : puzzle_solved su = true
    · rw [if_pos hs] at h
      simp only [Option.some.injEq, Prod.mk.injEq, true_and] at h
      subst h
      exact ⟨Relation.ReflTransGen.refl, hs⟩
    · rw [if_neg hs] at h
      rcases hlps : least_possible_solutions su 0 0 with ⟨k, r, c⟩
      rw [hlps] at h
      cases k with
      | zero => cases h
      | succ k0 =>
        obtain ⟨hE, hpz, _⟩ := lps_succ_inv hlps (by omega)
        apply solveTryAux_true_steps IH (solveFuel_false_eq f) hE hpz
          (cell_choices su r c) _ su rfl (fun j _ => rfl) s' h
        intro e he
        have hm := mem_cell_choices.mp he
        exact ⟨hm.2.1, hm.2.2.1⟩

/-! ### Digit counts per unit, and validity -/

/-- Number of occurrences of digit `d` among the solution values of the cells
of unit `u`. -/
def unitCount (su : Sudoku) (u : List (Fin 81)) (d : Nat) : Nat :=
  (u.map su.solution).count d

/-- All solution values are at most 9 (the data model's cell range). -/
def AllLE9 (su : Sudoku) : Prop := ∀ i : Fin 81, su.solution i ≤ 9

/-- No digit 1..9 occurs more than once in any row, column, or box. -/
def ValidCounts (su : Sudoku) : Prop :=
  ∀ u ∈ allUnits, ∀ d ∈ List.range' 1 9, unitCount su u d ≤ 1

/-- A well-formed board state: cell values in 0..9 and no duplicated digit in
any unit. -/
def ValidBoard (su : Sudoku) : Prop := AllLE9 su ∧ ValidCounts su

instance : DecidablePred ValidBoard := fun su => by
  rw [ValidBoard, AllLE9, ValidCounts]
  infer_instance

theorem map_update_of_not_mem {sol : Fin 81 → Nat} {cell : Fin 81} {v : Nat}
    {u : List (Fin 81)} (h : cell ∉ u) :
    u.map (Function.update sol cell v) = u.map sol := by
  apply List.map_congr_left
  intro j hj
  apply Function.update_noteq
  intro he
  rw [he] at hj
  exact h hj

theorem count_map_update_mem {sol : Fin 81 → Nat} {cell : Fin 81} {v : Nat}
    {u : List (Fin 81)} (hnd : u.Nodup) (hm : cell ∈ u) (e : Nat) :
    ((u.map (Function.update sol cell v)).count e) =
      (((u.erase cell).map sol).count e) + (if v = e then 1 else 0) := by
  have hperm : List.Perm u (cell :: u.erase cell) := List.perm_cons_erase hm
  have hmap : List.Perm (u.map (Function.update sol cell v))
      (Function.update sol cell v cell :: (u.erase cell).map (Function.update sol cell v)) :=
    hperm.map _
  have hnm : cell ∉ u.erase cell := by
    intro hc
    exact absurd ((hnd.mem_erase_iff).mp hc).1 (by simp)
  rw [hmap.count_eq]
  rw [map_update_of_not_mem hnm, Function.update_same]
  by_cases he : v = e
  · subst he
    simp [List.count_cons]
  · simp [List.count_cons, he, Ne.symm he]

theorem count_map_mem_erase {sol : Fin 81 → Nat} {cell : Fin 81}
    {u : List (Fin 81)} (hm : cell ∈ u) (e : Nat) :
    ((u.map sol).count e) = (((u.erase cell).map sol).count e) +
      (if sol cell = e then 1 else 0) := by
  have hperm : List.Perm u (cell :: u.erase cell) := List.perm_cons_erase hm
  rw [(hperm.map sol).count_eq]
  by_cases he : sol cell = e
  · subst he
    simp [List.count_cons]
  · simp [List.count_cons, he, Ne.symm he]

theorem count_eq_zero_of_not_occur {su : Sudoku} {u : List (Fin 81)} {d : Nat}
    (h : ∀ j ∈ u, su.solution j ≠ d) : unitCount su u d = 0 := by
  rw [unitCount, List.count_eq_zero]
  intro hmem
  obtain ⟨j, hj, hje⟩ := List.mem_map.mp hmem
  exact h j hj hje

theorem fillStep_validCounts {su t : Sudoku} (h : FillStep su t) (hv : ValidCounts su) :
    ValidCounts t := by
  obtain ⟨row, col, d, hE, hpz, hd1, hd9, hv1, hv2, hv3, ht⟩ := h
  intro u hu e he
  have hsol : t.solution = Function.update su.solution (idx row col) d := by rw [ht]
  by_cases hm : idx row col ∈ u
  · have hnd := (allUnits_nodup_len u hu).1
    rw [unitCount, hsol, count_map_update_mem hnd hm]
    have hsuc : unitCount su u e =
        (((u.erase (idx row col)).map su.solution).count e) +
        (if su.solution (idx row col) = e then 1 else 0) :=
      count_map_mem_erase hm e
    have he1 : 1 ≤ e := (List.mem_range'_1.mp he).1
    have hzne : ¬(su.solution (idx row col) = e) := by
      rw [hE]
      show ¬(0 = e)
      omega
    rw [if_neg hzne, add_zero] at hsuc
    by_cases hde : d = e
    · subst hde
      rw [if_pos rfl]
      have hzero : unitCount su u d = 0 := by
        rcases unit_containing_cell hu hm with h | h | h
        · subst h
          exact count_eq_zero_of_not_occur (violate_row_false_iff.mp hv1)
        · subst h
          exact count_eq_zero_of_not_occur (violate_col_false_iff.mp hv2)
        · subst h
          exact count_eq_zero_of_not_occur (violate_box_false_iff.mp hv3)
      rw [hsuc] at hzero
      omega
    · rw [if_neg hde, add_zero, ← hsuc]
      exact hv u hu e he
  · rw [unitCount, hsol, map_update_of_not_mem hm]
    exact hv u hu e he

theorem fillStep_allLE9 {su t : Sudoku} (h : FillStep su t) (hle : AllLE9 su) :
    AllLE9 t := by
  obtain ⟨row, col, d, hE, hpz, hd1, hd9, hv1, hv2, hv3, ht⟩ := h
  intro i
  rw [ht]
  show Function.update su.solution (idx row col) d i ≤ 9
  by_cases hi : i = idx row col
  · subst hi
    rw [Function.update_same]
    exact hd9
  · rw [Function.update_noteq hi]
    exact hle i

theorem fillStep_puzzle {su t : Sudoku} (h : FillStep su t) : t.puzzle = su.puzzle := by
  obtain ⟨row, col, d, _, _, _, _, _, _, _, ht⟩ := h
  rw [ht]

theorem fillStep_clue_sol {su t : Sudoku} (h : FillStep su t) :
    ∀ i, su.puzzle i ≠ EMPTY → t.solution i = su.solution i := by
  obtain ⟨row, col, d, hE, hpz, _, _, _, _, _, ht⟩ := h
  intro i hi
  rw [ht]
  show Function.update su.solution (idx row col) d i = su.solution i
  by_cases hic : i = idx row col
  · subst hic
    exact absurd hpz hi
  · rw [Function.update_noteq hic]

theorem chain_validBoard {su t : Sudoku} (h : Relation.ReflTransGen FillStep su t)
    (hv : ValidBoard su) : ValidBoard t := by
  induction h with
  | refl => exact hv
  | tail hab hbc ih => exact ⟨fillStep_allLE9 hbc ih.1, fillStep_validCounts hbc ih.2⟩

theorem chain_puzzle {su t : Sudoku} (h : Relation.ReflTransGen FillStep su t) :
    t.puzzle = su.puzzle := by
  induction h with
  | refl => rfl
  | tail hab hbc ih => rw [fillStep_puzzle hbc, ih]

theorem chain_clue_sol {su t : Sudoku} (h : Relation.ReflTransGen FillStep su t) :
    ∀ i, su.puzzle i ≠ EMPTY → t.solution i = su.solution i := by
  induction h with
  | refl => intro i _; rfl
  | tail hab hbc ih =>
    intro i hi
    rw [fillStep_clue_sol hbc i (by rw [chain_puzzle hab]; exact hi), ih i hi]

/-! ### A full valid board has each digit exactly once per unit -/

theorem solved_valid_exact {su : Sudoku} (hsolved : puzzle_solved su = true)
    (hv : ValidBoard su) :
    ∀ u ∈ allUnits, ∀ d ∈ List.range' 1 9, unitCount su u d = 1 := by
  intro u hu d hd
  obtain ⟨hnd, hlen⟩ := allUnits_nodup_len u hu
  rw [unitCount]
  have hlenv : (u.map su.solution).length = 9 := by rw [List.length_map, hlen]
  have hne : ∀ v ∈ u.map su.solution, 1 ≤ v ∧ v ≤ 9 := by
    intro v hvm
    obtain ⟨j, hj, hje⟩ := List.mem_map.mp hvm
    have h1 : su.solution j ≠ EMPTY := puzzle_solved_iff.mp hsolved j
    have h2 := hv.1 j
    rw [← hje]
    constructor
    · have : su.solution j ≠ 0 := h1
      omega
    · exact h2
  have hcle : ∀ a, (u.map su.solution).count a ≤ 1 := by
    intro a
    by_cases ham : a ∈ u.map su.solution
    · have hb := hne a ham
      exact hv.2 u hu a (List.mem_range'_1.mpr ⟨hb.1, by omega⟩)
    · rw [List.count_eq_zero.mpr ham]
      omega
  have hndv : (u.map su.solution).Nodup := List.nodup_iff_count_le_one.mpr hcle
  have hsub : (u.map su.solution).toFinset ⊆ Finset.Icc 1 9 := by
    intro a ha
    exact Finset.mem_Icc.mpr (hne a (List.mem_toFinset.mp ha))
  have hcard : (u.map su.solution).toFinset.card = 9 := by
    rw [List.toFinset_card_of_nodup hndv, hlenv]
  have hicc : (Finset.Icc 1 9 : Finset Nat).card = 9 := by
    rw [Nat.card_Icc]
  have heq : (u.map su.solution).toFinset = Finset.Icc 1 9 :=
    Finset.eq_of_subset_of_card_le hsub (by omega)
  obtain ⟨hd1, hd9⟩ := List.mem_range'_1.mp hd
  have hdin : d ∈ u.map su.solution := by
    have hmem : d ∈ (Finset.Icc 1 9 : Finset Nat) := Finset.mem_Icc.mpr ⟨hd1, by omega⟩
    rw [← heq] at hmem
    exact List.mem_toFinset.mp hmem
  have hpos : (u.map su.solution).count d ≠ 0 := fun h0 => List.count_eq_zero.mp h0 hdin
  have := hcle d
  omega

/-! ### Dead cells persist through solver fills -/

/-- A dead end: some cell is empty in the solution but has no legal candidate
at all. -/
def Dead (su : Sudoku) : Prop :=
  ∃ row col : Fin 9, su.solution (idx row col) = EMPTY ∧ cell_choices su row col = []

instance : DecidablePred Dead := fun su => by
  rw [Dead]
  infer_instance

theorem any_persist {su t : Sudoku} {cell : Fin 81} {d0 : Nat}
    (hsol : t.solution = Function.update su.solution cell d0)
    (hE : su.solution cell = EMPTY) {digit : Nat} (hdig : digit ≠ 0)
    {cells : List (Fin 81)}
    (h : cells.any (fun j => su.solution j == digit) = true) :
    cells.any (fun j => t.solution j == digit) = true := by
  rw [List.any_eq_true] at h ⊢
  obtain ⟨j, hj, hje⟩ := h
  refine ⟨j, hj, ?_⟩
  have hjd : su.solution j = digit := by simpa using hje
  have hjne : j ≠ cell := by
    intro hc
    rw [hc, hE] at hjd
    exact hdig hjd.symm
  rw [hsol]
  simp [Function.update_noteq hjne, hjd]

theorem fillStep_dead {su t : Sudoku} (h : FillStep su t) (hd : Dead su) : Dead t := by
  obtain ⟨r0, c0, d0, hE0, hpz0, hd01, hd09, hw1, hw2, hw3, ht⟩ := h
  obtain ⟨r, c, hE, hch⟩ := hd
  have hsol : t.solution = Function.update su.solution (idx r0 c0) d0 := by rw [ht]
  have hpzt : t.puzzle = su.puzzle := by rw [ht]
  have hne : idx r c ≠ idx r0 c0 := by
    intro heq
    obtain ⟨hr, hc⟩ := idx_inj heq
    subst hr
    subst hc
    have hmem : d0 ∈ cell_choices su r c :=
      mem_cell_choices.mpr ⟨hpz0, hd01, hd09, hw1, hw2, hw3⟩
    rw [hch] at hmem
    cases hmem
  refine ⟨r, c, ?_, ?_⟩
  · rw [hsol, Function.update_noteq hne, hE]
  · by_cases hpz : t.puzzle (idx r c) = EMPTY
    · have hpzs : su.puzzle (idx r c) = EMPTY := by rw [← hpzt]; exact hpz
      rw [cell_choices_nonclue hpzs] at hch
      rw [cell_choices_nonclue hpz]
      rw [List.filter_eq_nil_iff] at hch ⊢
      intro a ha
      have hviol := hch a ha
      simp only [Bool.not_eq_eq_eq_not, Bool.not_true, Bool.not_eq_true,
        Bool.not_eq_false] at hviol ⊢
      have ha1 : 1 ≤ a := (List.mem_range'_1.mp ha).1
      have hane : a ≠ 0 := by omega
      rcases Bool.or_eq_true _ _ |>.mp hviol with hv | hv3
      · rcases Bool.or_eq_true _ _ |>.mp hv with hv1 | hv2
        · have hvr : violate_row t r a = true := any_persist hsol hE0 hane hv1
          show (violate_row t r a || violate_col t c a || violate_box t r c a) = true
          simp [hvr]
        · have hvc : violate_col t c a = true := any_persist hsol hE0 hane hv2
          show (violate_row t r a || violate_col t c a || violate_box t r c a) = true
          simp [hvc]
      · have hvb : violate_box t r c a = true := any_persist hsol hE0 hane hv3
        show (violate_row t r a || violate_col t c a || violate_box t r c a) = true
        simp [hvb]
    · exact cell_choices_clue hpz

theorem chain_dead {su t : Sudoku} (h : Relation.ReflTransGen FillStep su t)
    (hd : Dead su) : Dead t := by
  induction h with
  | refl => exact hd
  | tail hab hbc ih => exact fillStep_dead hbc ih

theorem dead_not_solved {su : Sudoku} (h : Dead su) : puzzle_solved su = false := by
  obtain ⟨r, c, hE, _⟩ := h
  rw [Bool.eq_false_iff]
  intro hs
  exact (puzzle_solved_iff.mp hs (idx r c)) hE

theorem solveFuel_not_true_of_dead {fuel : Nat} {su s' : Sudoku} (hd : Dead su) :
    solveFuel fuel su ≠ some (true, s') := by
  intro h
  obtain ⟨hchain, hsolved⟩ := solveFuel_true_steps fuel su s' h
  rw [dead_not_solved (chain_dead hchain hd)] at hsolved
  cases hsolved

/-! ### Facts at the `sudoku_solve` wrapper level -/

theorem sudoku_solve_eq_solveFuel (su : Sudoku) :
    ∃ b s, solveFuel 82 su = some (b, s) ∧ sudoku_solve su = (b, s) := by
  have hs := solveFuel_isSome 82 su (by have := emptyCells_le_81 su; omega)
  rcases h : solveFuel 82 su with _ | ⟨b, s⟩
  · rw [h] at hs
    cases hs
  · exact ⟨b, s, rfl, by rw [sudoku_solve, h]⟩

theorem sudoku_solve_false_eq {su s' : Sudoku} (h : sudoku_solve su = (false, s')) :
    s' = su := by
  obtain ⟨b, s, hf, he⟩ := sudoku_solve_eq_solveFuel su
  rw [he] at h
  have hb : b = false := (Prod.mk.injEq _ _ _ _ ▸ h).1
  have hseq : s = s' := (Prod.mk.injEq _ _ _ _ ▸ h).2
  rw [hb] at hf
  rw [← hseq]
  exact solveFuel_false_eq 82 su s hf

theorem sudoku_solve_of_dead {su : Sudoku} (hd : Dead su) :
    sudoku_solve su = (false, su) := by
  obtain ⟨b, s, hf, he⟩ := sudoku_solve_eq_solveFuel su
  cases b with
  | true => exact absurd hf (solveFuel_not_true_of_dead hd)
  | false =>
    rw [solveFuel_false_eq 82 su s hf] at he
    exact he

theorem sudoku_solve_true_chain {su s' : Sudoku} (h : sudoku_solve su = (true, s')) :
    Relation.ReflTransGen FillStep su s' ∧ puzzle_solved s' = true := by
  obtain ⟨b, s, hf, he⟩ := sudoku_solve_eq_solveFuel su
  rw [he] at h
  have hb : b = true := (Prod.mk.injEq _ _ _ _ ▸ h).1
  have hseq : s = s' := (Prod.mk.injEq _ _ _ _ ▸ h).2
  rw [hb] at hf
  rw [← hseq]
  exact solveFuel_true_steps 82 su s hf

/-! ### Operation sequences and the clue invariant -/

/-- The mutating operations of the public interface. -/
inductive Op where
  | reset : Op
  | erase (row col : Fin 9) : Op
  | fill (row col : Fin 9) (num : Nat) : Op
  | solve : Op

/-- Apply one operation, keeping only the resulting board state. -/
def applyOp (su : Sudoku) : Op → Sudoku
  | Op.reset => solution_reset su
  | Op.erase r c => (cell_erase su r c).2
  | Op.fill r c n => (cell_fill su r c n).2
  | Op.solve => (sudoku_solve su).2

/-- Apply a sequence of operations left to right. -/
def applyOps (su : Sudoku) (ops : List Op) : Sudoku := ops.foldl applyOp su

/-- Clue cells carry their puzzle value in the solution. -/
def ClueInv (su : Sudoku) : Prop :=
  ∀ i, su.puzzle i ≠ EMPTY → su.solution i = su.puzzle i

theorem cell_erase_snd_puzzle (su : Sudoku) (r c : Fin 9) :
    (cell_erase su r c).2.puzzle = su.puzzle := by
  by_cases h : su.puzzle (idx r c) = EMPTY
  · rw [cell_erase_ok h]
  · rw [cell_erase_clue h]

theorem cell_fill_snd_puzzle (su : Sudoku) (r c : Fin 9) (n : Nat) :
    (cell_fill su r c n).2.puzzle = su.puzzle := by
  rcases hf : cell_fill su r c n with ⟨b, t⟩
  cases b with
  | false => rw [cell_fill_false_eq hf]
  | true =>
    obtain ⟨_, _, _, _, ht⟩ := cell_fill_true_eq hf
    rw [ht]

theorem sudoku_solve_snd_puzzle (su : Sudoku) :
    (sudoku_solve su).2.puzzle = su.puzzle := by
  obtain ⟨b, s, hf, he⟩ := sudoku_solve_eq_solveFuel su
  rw [he]
  cases b with
  | false =>
    rw [solveFuel_false_eq 82 su s hf]
  | true =>
    exact chain_puzzle (solveFuel_true_steps 82 su s hf).1

theorem sudoku_solve_clue_sol (su : Sudoku) :
    ∀ i, su.puzzle i ≠ EMPTY → (sudoku_solve su).2.solution i = su.solution i := by
  obtain ⟨b, s, hf, he⟩ := sudoku_solve_eq_solveFuel su
  rw [he]
  cases b with
  | false =>
    rw [solveFuel_false_eq 82 su s hf]
    intro i _
    rfl
  | true =>
    exact chain_clue_sol (solveFuel_true_steps 82 su s hf).1

theorem applyOp_puzzle (su : Sudoku) (o : Op) : (applyOp su o).puzzle = su.puzzle := by
  cases o with
  | reset => rfl
  | erase r c => exact cell_erase_snd_puzzle su r c
  | fill r c n => exact cell_fill_snd_puzzle su r c n
  | solve => exact sudoku_solve_snd_puzzle su

theorem applyOp_clueInv {su : Sudoku} (h : ClueInv su) (o : Op) : ClueInv (applyOp su o) := by
  cases o with
  | reset =>
    intro i _
    rfl
  | erase r c =>
    intro i hi
    simp only [applyOp] at hi ⊢
    rw [cell_erase_snd_puzzle su r c] at hi
    by_cases hp : su.puzzle (idx r c) = EMPTY
    · rw [cell_erase_ok hp]
      show Function.update su.solution (idx r c) EMPTY i = _
      have hine : i ≠ idx r c := fun he => hi (he ▸ hp)
      rw [Function.update_noteq hine]
      exact h i hi
    · rw [cell_erase_clue hp]
      exact h i hi
  | fill r c n =>
    intro i hi
    simp only [applyOp] at hi ⊢
    rw [cell_fill_snd_puzzle su r c n] at hi
    rcases hf : cell_fill su r c n with ⟨b, t⟩
    cases b with
    | false =>
      rw [cell_fill_false_eq hf]
      exact h i hi
    | true =>
      obtain ⟨hp, _, _, _, ht⟩ := cell_fill_true_eq hf
      rw [ht]
      show Function.update su.solution (idx r c) n i = su.puzzle i
      have hine : i ≠ idx r c := fun he => hi (he ▸ hp)
      rw [Function.update_noteq hine]
      exact h i hi
  | solve =>
    intro i hi
    simp only [applyOp] at hi ⊢
    rw [sudoku_solve_snd_puzzle su] at hi
    rw [sudoku_solve_clue_sol su i hi, sudoku_solve_snd_puzzle su]
    exact h i hi

theorem applyOps_puzzle (su : Sudoku) (ops : List Op) :
    (applyOps su ops).puzzle = su.puzzle := by
  induction ops generalizing su with
  | nil => rfl
  | cons o rest ih => rw [applyOps, List.foldl_cons, ← applyOps, ih, applyOp_puzzle]

theorem applyOps_clueInv {su : Sudoku} (h : ClueInv su) (ops : List Op) :
    ClueInv (applyOps su ops) := by
  induction ops generalizing su with
  | nil => exact h
  | cons o rest ih =>
    rw [applyOps, List.foldl_cons, ← applyOps]
    exact ih (applyOp_clueInv h o)

/-! ### Idempotence helpers -/

theorem cell_erase_idem (su : Sudoku) (r c : Fin 9) :
    cell_erase (cell_erase su r c).2 r c = cell_erase su r c := by
  by_cases h : su.puzzle (idx r c) = EMPTY
  · rw [cell_erase_ok h]
    show cell_erase { su with solution := Function.update su.solution (idx r c) EMPTY } r c = _
    rw [@cell_erase_ok { su with
      solution := Function.update su.solution (idx r c) EMPTY } r c h]
    simp [Function.update_idem]
  · rw [cell_erase_clue h]
    exact cell_erase_clue h

theorem cell_erase_noop {su : Sudoku} {r c : Fin 9}
    (hp : su.puzzle (idx r c) = EMPTY) (hs : su.solution (idx r c) = EMPTY) :
    cell_erase su r c = (true, su) := by
  rw [cell_erase_ok hp]
  have hupd : Function.update su.solution (idx r c) EMPTY = su.solution := by
    rw [← hs]
    exact Function.update_eq_self _ _
  rw [hupd]

theorem cell_erase_false_iff (su : Sudoku) (r c : Fin 9) :
    (cell_erase su r c).1 = false ↔ su.puzzle (idx r c) ≠ EMPTY := by
  by_cases h : su.puzzle (idx r c) = EMPTY
  · rw [cell_erase_ok h]
    simp [h]
  · rw [cell_erase_clue h]
    simp [h]

theorem cell_fill_self_violates {su : Sudoku} {r c : Fin 9} {n : Nat}
    (hs : su.solution (idx r c) = n) : violate_row su r n = true := by
  rw [violate_row, List.any_eq_true]
  exact ⟨idx r c, idx_mem_rowCells r c, by simp [hs]⟩

theorem cell_fill_second_false {su : Sudoku} {r c : Fin 9} {n : Nat} {t : Sudoku}
    (h : cell_fill su r c n = (true, t)) : cell_fill t r c n = (false, t) := by
  obtain ⟨hp, _, _, _, ht⟩ := cell_fill_true_eq h
  have hpt : t.puzzle (idx r c) = EMPTY := by rw [ht]; exact hp
  have hst : t.solution (idx r c) = n := by
    rw [ht]
    exact Function.update_same _ _ _
  exact cell_fill_violate hpt (by simp [cell_fill_self_violates hst])

theorem cell_fill_state_idem (su : Sudoku) (r c : Fin 9) (n : Nat) :
    (cell_fill (cell_fill su r c n).2 r c n).2 = (cell_fill su r c n).2 := by
  rcases hf : cell_fill su r c n with ⟨b, t⟩
  cases b with
  | false =>
    rw [cell_fill_false_eq hf]
    rw [cell_fill_false_eq hf] at hf
    rw [hf]
  | true =>
    rw [cell_fill_second_false hf]

theorem solution_reset_idem (su : Sudoku) :
    solution_reset (solution_reset su) = solution_reset su := rfl

theorem sudoku_solve_of_solved {su : Sudoku} (hs : puzzle_solved su = true) :
    sudoku_solve su = (true, su) := by
  have h82 : solveFuel 82 su = some (true, su) := by
    rw [show (82 : Nat) = 81 + 1 from rfl, solveFuel, if_pos hs]
  rw [sudoku_solve, h82]

theorem sudoku_solve_idem (su : Sudoku) :
    sudoku_solve (sudoku_solve su).2 = sudoku_solve su := by
  rcases hs : sudoku_solve su with ⟨b, s⟩
  cases b with
  | false =>
    have hsu : s = su := sudoku_solve_false_eq hs
    show sudoku_solve s = (false, s)
    rw [hsu]
    rw [hsu] at hs
    exact hs
  | true =>
    have hsolved := (sudoku_solve_true_chain hs).2
    show sudoku_solve s = (true, s)
    exact sudoku_solve_of_solved hsolved

/-! ### Successful fills at empty cells decrease the number of empty cells -/

theorem cell_fill_decreases {su : Sudoku} {r c : Fin 9} {n : Nat} {t : Sudoku}
    (hE : su.solution (idx r c) = EMPTY) (h : cell_fill su r c n = (true, t)) :
    emptyCells t < emptyCells su := by
  obtain ⟨hp, hv1, _, _, ht⟩ := cell_fill_true_eq h
  have hne : n ≠ EMPTY := by
    intro h0
    have := violate_row_false_iff.mp hv1 (idx r c) (idx_mem_rowCells r c)
    rw [hE, h0] at this
    exact this rfl
  have := @emptyCells_update su (idx r c) n hE hne
  rw [← ht] at this
  omega

/-! ### Concrete boards used as witnesses and counterexamples -/

/-- A complete valid grid (rows are cyclic shifts; every unit holds 1..9).
Used where a solvable, already-solved board is needed. -/
def fullGrid : Sudoku :=
  { puzzle := mkBoard [1,2,3,4,5,6,7,8,9,
                       4,5,6,7,8,9,1,2,3,
                       7,8,9,1,2,3,4,5,6,
                       2,3,4,5,6,7,8,9,1,
                       5,6,7,8,9,1,2,3,4,
                       8,9,1,2,3,4,5,6,7,
                       3,4,5,6,7,8,9,1,2,
                       6,7,8,9,1,2,3,4,5,
                       9,1,2,3,4,5,6,7,8],
    solution := mkBoard [1,2,3,4,5,6,7,8,9,
                       4,5,6,7,8,9,1,2,3,
                       7,8,9,1,2,3,4,5,6,
                       2,3,4,5,6,7,8,9,1,
                       5,6,7,8,9,1,2,3,4,
                       8,9,1,2,3,4,5,6,7,
                       3,4,5,6,7,8,9,1,2,
                       6,7,8,9,1,2,3,4,5,
                       9,1,2,3,4,5,6,7,8] }

/-- An unsolvable board with a single empty cell (0,8) whose row holds 1..8
and whose column holds 9, so that cell has no candidate. -/
def wBL : List Nat :=
  [1,2,3,4,5,6,7,8,0,
   9,9,9,9,9,9,9,9,9,
   9,9,9,9,9,9,9,9,9,
   9,9,9,9,9,9,9,9,9,
   9,9,9,9,9,9,9,9,9,
   9,9,9,9,9,9,9,9,9,
   9,9,9,9,9,9,9,9,9,
   9,9,9,9,9,9,9,9,9,
   9,9,9,9,9,9,9,9,9]

def wB : Sudoku := { puzzle := mkBoard wBL, solution := mkBoard wBL }

/-- The scenario board of the spec: cell (0,8) is empty with zero candidates
(row 0 holds 1..8, and 9 sits at (1,8) in its column and box), while every
other non-clue cell is still empty. -/
def scBL : List Nat :=
  [1,2,3,4,5,6,7,8,0,
   0,0,0,0,0,0,0,0,9]

def scB : Sudoku := { puzzle := mkBoard scBL, solution := mkBoard scBL }

/-- A fully-filled board of 5s: puzzle_solved holds, yet every unit is
invalid. -/
def all5 : Sudoku := { puzzle := fun _ => 5, solution := fun _ => 5 }

/-- The board with no clues and an empty solution. -/
def eB : Sudoku := { puzzle := mkBoard [], solution := mkBoard [] }

/-- A board with no clues whose cell (0,0) currently holds 1. -/
def eB1 : Sudoku := { puzzle := mkBoard [], solution := mkBoard [1] }

/-! ### The claims -/

set_option maxRecDepth 100000

/-- Claim C2: if `sudoku_solve(su)` returns false, then `su` (both the puzzle
array and the solution array) is identical to its state immediately before the
call; every speculative fill made during the search has been undone. -/
theorem c2_solve_failure_restores (su s' : Sudoku)
    (h : sudoku_solve su = (false, s')) :
    s' = su ∧ s'.puzzle = su.puzzle ∧ s'.solution = su.solution := by
  have he := sudoku_solve_false_eq h
  exact ⟨he, by rw [he], by rw [he]⟩

/-- Witness for C2 at the concrete unsolvable board `wB`. -/
theorem c2_solve_failure_restores_witness : (sudoku_solve wB).2 = wB := by
  have h : sudoku_solve wB = (false, (sudoku_solve wB).2) := by rfl
  exact (c2_solve_failure_restores wB (sudoku_solve wB).2 h).1

/-- Claim C3: for valid coordinates and num in [1,9], `cell_fill` fails without
mutation on a clue cell; fails without mutation if num already occurs in the
row, the column, or the 3x3 box of the cell; and otherwise writes num into
`solution[row*9+col]` and returns true. -/
theorem c3_cell_fill_spec (su : Sudoku) (r c : Fin 9) (n : Nat)
    (h1 : 1 ≤ n) (h9 : n ≤ 9) :
    (su.puzzle (idx r c) ≠ EMPTY → cell_fill su r c n = (false, su)) ∧
    (su.puzzle (idx r c) = EMPTY →
      ((∃ j ∈ rowCells r, su.solution j = n) ∨ (∃ j ∈ colCells c, su.solution j = n) ∨
        (∃ j ∈ boxCellsOf r c, su.solution j = n)) → cell_fill su r c n = (false, su)) ∧
    (su.puzzle (idx r c) = EMPTY →
      (∀ j ∈ rowCells r, su.solution j ≠ n) → (∀ j ∈ colCells c, su.solution j ≠ n) →
      (∀ j ∈ boxCellsOf r c, su.solution j ≠ n) →
      cell_fill su r c n =
        (true, { su with solution := Function.update su.solution (idx r c) n })) := by
  refine ⟨fun hp => cell_fill_clue hp, fun hp hocc => ?_, fun hp hr hc hb => ?_⟩
  · apply cell_fill_violate hp
    rcases hocc with h | h | h
    · simp [violate_row_true_iff.mpr h]
    · simp [violate_col_true_iff.mpr h]
    · simp [violate_box_true_iff.mpr h]
  · exact cell_fill_ok hp (violate_row_false_iff.mpr hr) (violate_col_false_iff.mpr hc)
      (violate_box_false_iff.mpr hb)

/-- Witness for C3: on the empty board, filling 1 at (0,0) succeeds and writes
the digit. -/
theorem c3_cell_fill_spec_witness :
    cell_fill eB 0 0 1 =
      (true, { eB with solution := Function.update eB.solution (idx 0 0) 1 }) :=
  (c3_cell_fill_spec eB 0 0 1 (by decide) (by decide)).2.2 (by decide)
    (by decide) (by decide) (by decide)

/-- Claim C5: `least_possible_solutions` returns 0 (leaving row and col
untouched) exactly when no empty cell has a candidate; otherwise it returns
the minimum positive candidate count over empty cells, at the first empty
cell in row-major order attaining it, whose candidate list is
`cell_choices` of that cell. -/
theorem c5_lps_spec (su : Sudoku) (r0 c0 : Fin 9) :
    ((∀ r c : Fin 9, su.solution (idx r c) = EMPTY → cell_choices su r c = []) →
      least_possible_solutions su r0 c0 = (0, r0, c0)) ∧
    (∀ r1 c1 : Fin 9, su.solution (idx r1 c1) = EMPTY → cell_choices su r1 c1 ≠ [] →
      ∃ k r c, least_possible_solutions su r0 c0 = (k, r, c) ∧ 0 < k ∧
        su.solution (idx r c) = EMPTY ∧ (cell_choices su r c).length = k ∧
        (∀ r2 c2 : Fin 9, su.solution (idx r2 c2) = EMPTY →
          0 < (cell_choices su r2 c2).length → k ≤ (cell_choices su r2 c2).length) ∧
        (∀ r2 c2 : Fin 9, su.solution (idx r2 c2) = EMPTY →
          (cell_choices su r2 c2).length = k →
          r.val * 9 + c.val ≤ r2.val * 9 + c2.val)) ∧
    (∀ k r c, least_possible_solutions su r0 c0 = (k, r, c) → k ≠ 0 →
      su.solution (idx r c) = EMPTY ∧ (cell_choices su r c).length = k) := by
  refine ⟨lps_of_no_candidates r0 c0, fun r1 c1 hE hne => ?_, fun k r c h hk => ?_⟩
  · have hpos : 0 < (cell_choices su r1 c1).length := List.length_pos.mpr hne
    obtain ⟨k, r, c, hr, hE2, hlen, hk, hmin, hfirst⟩ := lps_of_candidate r0 c0 hE hpos
    exact ⟨k, r, c, hr, hk, hE2, hlen, hmin, hfirst⟩
  · obtain ⟨hE, _, hlen⟩ := lps_succ_inv h hk
    exact ⟨hE, hlen⟩

/-- Witness for C5 at `wB`, whose single empty cell has no candidates. -/
theorem c5_lps_spec_witness : least_possible_solutions wB 0 0 = (0, 0, 0) :=
  (c5_lps_spec wB 0 0).1 (by decide)

/-- Claim C7: `cell_choices` returns the empty candidate list on a clue cell;
otherwise it returns, in strictly ascending order, exactly the digits 1..9
that occur nowhere in the cell's row, column, or 3x3 box, its length being the
returned count. -/
theorem c7_cell_choices_spec (su : Sudoku) (r c : Fin 9) :
    (su.puzzle (idx r c) ≠ EMPTY → cell_choices su r c = []) ∧
    List.Sorted (fun a b => a < b) (cell_choices su r c) ∧
    (su.puzzle (idx r c) = EMPTY → ∀ d : Nat,
      (d ∈ cell_choices su r c ↔ 1 ≤ d ∧ d ≤ 9 ∧
        (∀ j ∈ rowCells r, su.solution j ≠ d) ∧ (∀ j ∈ colCells c, su.solution j ≠ d) ∧
        (∀ j ∈ boxCellsOf r c, su.solution j ≠ d))) := by
  refine ⟨cell_choices_clue, cell_choices_sorted su r c, fun hp d => ?_⟩
  rw [mem_cell_choices]
  constructor
  · rintro ⟨_, hd1, hd9, hv1, hv2, hv3⟩
    exact ⟨hd1, hd9, violate_row_false_iff.mp hv1, violate_col_false_iff.mp hv2,
      violate_box_false_iff.mp hv3⟩
  · rintro ⟨hd1, hd9, hr, hc, hb⟩
    exact ⟨hp, hd1, hd9, violate_row_false_iff.mpr hr, violate_col_false_iff.mpr hc,
      violate_box_false_iff.mpr hb⟩

/-- Witness for C7: on the empty board, 9 is a legal candidate at (0,0). -/
theorem c7_cell_choices_spec_witness : 9 ∈ cell_choices eB 0 0 :=
  ((c7_cell_choices_spec eB 0 0).2.2 (by decide) 9).mpr
    ⟨by decide, by decide, by decide, by decide, by decide⟩

/-- Claim C9: the solver terminates on every board state: fuel exceeding the
number of empty cells never runs out, each successful `cell_fill` at an empty
cell strictly decreases the number of empty cells, and every failing
`sudoku_solve` call restores that number. -/
theorem c9_termination (su : Sudoku) (fuel : Nat) (h : emptyCells su < fuel) :
    (solveFuel fuel su).isSome = true ∧
    (∀ (r c : Fin 9) (n : Nat) (t : Sudoku), su.solution (idx r c) = EMPTY →
      cell_fill su r c n = (true, t) → emptyCells t < emptyCells su) ∧
    (∀ s', sudoku_solve su = (false, s') → emptyCells s' = emptyCells su) := by
  refine ⟨solveFuel_isSome fuel su h, fun r c n t hE hf => cell_fill_decreases hE hf,
    fun s' hs => ?_⟩
  rw [sudoku_solve_false_eq hs]

/-- Witness for C9 at `wB` with fuel 82. -/
theorem c9_termination_witness : (solveFuel 82 wB).isSome = true :=
  (c9_termination wB 82 (by decide)).1

/-- Claim C10: `cell_fill` does not require the target cell to be empty, only
non-clue: on a cell currently holding d, refilling the same digit d always
fails (the cell's own value trips the row check), while filling a different
digit that occurs nowhere in the cell's row, column, or box overwrites d and
returns true. -/
theorem c10_fill_overwrite (su : Sudoku) (r c : Fin 9) (d num : Nat)
    (hp : su.puzzle (idx r c) = EMPTY) (hs : su.solution (idx r c) = d) (hd : d ≠ 0) :
    cell_fill su r c d = (false, su) ∧
    (num ≠ d → (∀ j ∈ rowCells r, su.solution j ≠ num) →
      (∀ j ∈ colCells c, su.solution j ≠ num) →
      (∀ j ∈ boxCellsOf r c, su.solution j ≠ num) →
      cell_fill su r c num =
        (true, { su with solution := Function.update su.solution (idx r c) num })) := by
  refine ⟨?_, fun hne hr hc hb => ?_⟩
  · exact cell_fill_violate hp (by simp [cell_fill_self_violates hs])
  · exact cell_fill_ok hp (violate_row_false_iff.mpr hr) (violate_col_false_iff.mpr hc)
      (violate_box_false_iff.mpr hb)

/-- Witness for C10 on the board whose cell (0,0) holds 1 and is not a clue:
refilling 1 fails, overwriting with 2 succeeds. -/
theorem c10_fill_overwrite_witness :
    cell_fill eB1 0 0 1 = (false, eB1) ∧
    cell_fill eB1 0 0 2 =
      (true, { eB1 with solution := Function.update eB1.solution (idx 0 0) 2 }) :=
  ⟨(c10_fill_overwrite eB1 0 0 1 2 (by decide) (by decide) (by decide)).1,
   (c10_fill_overwrite eB1 0 0 1 2 (by decide) (by decide) (by decide)).2
     (by decide) (by decide) (by decide) (by decide)⟩

/-- Counterexample to claim C1 as stated: on the all-5s board (reachable by
reading a puzzle of 81 fives), `sudoku_solve` returns true because
`puzzle_solved` only checks non-emptiness, yet digit 1 occurs zero times (not
exactly once) in row 0 of the resulting board. -/
theorem c1_counterexample :
    sudoku_solve all5 = (true, all5) ∧
    unitCount (sudoku_solve all5).2 (rowCells 0) 1 = 0 := by
  constructor
  · rfl
  · decide

/-- Claim C1 (amended): if the board entered the call valid (cells in 0..9,
no digit 1..9 repeated in any row, column, or box) and `sudoku_solve(su)`
returns true, then afterwards `puzzle_solved` holds and every row, column, and
3x3 box contains each digit 1..9 exactly once. -/
theorem c1_solve_sound (su s' : Sudoku) (hv : ValidBoard su)
    (h : sudoku_solve su = (true, s')) :
    puzzle_solved s' = true ∧
    ∀ u ∈ allUnits, ∀ d ∈ List.range' 1 9, unitCount s' u d = 1 := by
  obtain ⟨hchain, hsolved⟩ := sudoku_solve_true_chain h
  exact ⟨hsolved, solved_valid_exact hsolved (chain_validBoard hchain hv)⟩

/-- Witness for C1 at the complete valid grid. -/
theorem c1_solve_sound_witness :
    puzzle_solved fullGrid = true ∧ unitCount fullGrid (rowCells 0) 5 = 1 :=
  ⟨(c1_solve_sound fullGrid fullGrid (by decide) (by rfl)).1,
   (c1_solve_sound fullGrid fullGrid (by decide) (by rfl)).2 (rowCells 0)
     (rowCells_mem_allUnits 0) 5 (by decide)⟩

/-- Claim C4: starting from a board whose solution equals its puzzle, any
sequence of reset / erase / fill / solve calls preserves the invariant that
non-empty puzzle cells keep their puzzle value in the solution; moreover
`cell_fill` and `cell_erase` on a clue cell always return false without
mutating. -/
theorem c4_clue_invariant (su : Sudoku) (ops : List Op) (h : su.solution = su.puzzle) :
    (∀ i, (applyOps su ops).puzzle i ≠ EMPTY →
      (applyOps su ops).solution i = (applyOps su ops).puzzle i) ∧
    (∀ (r c : Fin 9) (n : Nat), (applyOps su ops).puzzle (idx r c) ≠ EMPTY →
      cell_fill (applyOps su ops) r c n = (false, applyOps su ops) ∧
      cell_erase (applyOps su ops) r c = (false, applyOps su ops)) := by
  have hinv : ClueInv su := fun i _ => by rw [h]
  exact ⟨applyOps_clueInv hinv ops,
    fun r c n hne => ⟨cell_fill_clue hne, cell_erase_clue hne⟩⟩

/-- Witness for C4: after solving the full grid, the clue cell (0,0) still
rejects fills. -/
theorem c4_clue_invariant_witness :
    cell_fill (applyOps fullGrid [Op.solve]) 0 0 3 = (false, applyOps fullGrid [Op.solve]) :=
  ((c4_clue_invariant fullGrid [Op.solve] rfl).2 0 0 3 (by decide)).1

/-- Counterexample to claim C6 as stated: on the scenario board `scB` the
dead-end cell (0,8) is empty with zero candidates, yet
`least_possible_solutions` does not report that zero-candidate state — it
returns candidate count 5 at cell (1,0). -/
theorem c6_counterexample :
    scB.solution (idx 0 8) = EMPTY ∧ cell_choices scB 0 8 = [] ∧
    least_possible_solutions scB 0 0 = (5, 1, 0) := by
  refine ⟨by rfl, by rfl, by rfl⟩

/-- Claim C6 (amended): on the scenario board the dead-end cell (0,8) has zero
candidates, `least_possible_solutions` excludes it from the minimum and
returns the minimum positive count 5 at the first such cell (1,0), and
`sudoku_solve` returns false after finitely many steps, leaving the board
unchanged. -/
theorem c6_dead_end_scenario :
    scB.solution (idx 0 8) = EMPTY ∧ cell_choices scB 0 8 = [] ∧
    least_possible_solutions scB 0 0 = (5, 1, 0) ∧
    sudoku_solve scB = (false, scB) := by
  refine ⟨by rfl, by rfl, by rfl, sudoku_solve_of_dead ⟨0, 8, by rfl, by rfl⟩⟩

/-- Counterexample to claim C8 as stated: `cell_fill` is not result-idempotent:
the second identical call returns false where the first returned true. -/
theorem c8_counterexample :
    (cell_fill eB 0 0 1).1 = true ∧ (cell_fill (cell_fill eB 0 0 1).2 0 0 1).1 = false := by
  exact ⟨by rfl, by rfl⟩

/-- Claim C8 (amended): all operations are deterministic; erase, reset, and
solve are idempotent in state and result; `cell_fill` is idempotent in state
only — a repeated identical fill returns false because the digit it committed
now occupies the row; `cell_erase` on an already-empty non-clue cell is a
no-op that still returns true, and `cell_erase` returns false exactly when the
target cell is a clue. -/
theorem c8_idempotence (su : Sudoku) (r c : Fin 9) (n : Nat) :
    cell_erase (cell_erase su r c).2 r c = cell_erase su r c ∧
    solution_reset (solution_reset su) = solution_reset su ∧
    sudoku_solve (sudoku_solve su).2 = sudoku_solve su ∧
    (cell_fill (cell_fill su r c n).2 r c n).2 = (cell_fill su r c n).2 ∧
    ((cell_fill su r c n).1 = true → (cell_fill (cell_fill su r c n).2 r c n).1 = false) ∧
    (su.puzzle (idx r c) = EMPTY → su.solution (idx r c) = EMPTY →
      cell_erase su r c = (true, su)) ∧
    ((cell_erase su r c).1 = false ↔ su.puzzle (idx r c) ≠ EMPTY) := by
  refine ⟨cell_erase_idem su r c, solution_reset_idem su, sudoku_solve_idem su,
    cell_fill_state_idem su r c n, fun ht => ?_, fun hp hs => cell_erase_noop hp hs,
    cell_erase_false_iff su r c⟩
  rcases hf : cell_fill su r c n with ⟨b, t⟩
  have hb : b = true := by rw [hf] at ht; exact ht
  subst hb
  show (cell_fill t r c n).1 = false
  rw [cell_fill_second_false hf]

/-- Witness for C8 on the empty board at (0,0). -/
theorem c8_idempotence_witness :
    (cell_fill (cell_fill eB 0 0 1).2 0 0 1).1 = false ∧ cell_erase eB 0 0 = (true, eB) :=
  ⟨(c8_idempotence eB 0 0 1).2.2.2.2.1 (by rfl),
   (c8_idempotence eB 0 0 1).2.2.2.2.2.1 (by rfl) (by rfl)⟩
